import Mathlib

/-!
Verification of the multi-armed-bandit simulator (multi_armed_bandit.py).

The Python source is embedded shallowly:
* machine floats become exact rationals (ℚ); the transcendental UCB score
  (sqrt/log) lives in ℝ;
* every call to the random module is replaced by an explicit oracle stream
  passed to the run, so a run is a pure function of its draws;
* Python lists become Lean lists, `list[i]` becomes `List.getD` (all source
  accesses are in bounds), `list.index(max(list))` becomes `idxOfMax`;
* each run additionally records the selected arm and raw reward of every
  step in ghost trace fields (`arms`, `raw`); these are write-only
  instrumentation and do not influence any computation.
-/

namespace MAB

/-! ### Python `max` / `list.index(max(list))` -/

/-- Running maximum of a list, folded from an initial element, the way
Python's `max` scans a nonempty list. -/
def listMax {α : Type} [LinearOrder α] : α → List α → α
  | x, [] => x
  | x, y :: ys => listMax (max x y) ys

/-- Index of the first occurrence of the maximum of a list: the embedding of
the Python idiom that looks a list up at the position of its maximum, which
returns the first position on ties. The empty list is mapped to 0. -/
def idxOfMax {α : Type} [LinearOrder α] : List α → ℕ
  | [] => 0
  | [_] => 0
  | x :: y :: ys => if listMax y ys ≤ x then 0 else idxOfMax (y :: ys) + 1

lemma listMax_cons {α : Type} [LinearOrder α] (x y : α) (ys : List α) :
    listMax x (y :: ys) = max x (listMax y ys) := by
  induction ys generalizing x y with
  | nil => simp [listMax]
  | cons z zs ih =>
      calc listMax x (y :: z :: zs) = listMax (max x y) (z :: zs) := rfl
        _ = max (max x y) (listMax z zs) := ih (max x y) z
        _ = max x (max y (listMax z zs)) := max_assoc x y _
        _ = max x (listMax y (z :: zs)) := by rw [ih y z]

lemma le_listMax {α : Type} [LinearOrder α] (x : α) (ys : List α) :
    x ≤ listMax x ys := by
  cases ys with
  | nil => simp [listMax]
  | cons y ys => rw [listMax_cons]; exact le_max_left _ _

lemma mem_le_listMax {α : Type} [LinearOrder α] {z : α} (x : α) (ys : List α)
    (h : z ∈ ys) : z ≤ listMax x ys := by
  induction ys generalizing x with
  | nil => cases h
  | cons y ys ih =>
      rw [listMax_cons]
      rcases List.mem_cons.mp h with rfl | h1
      · exact le_trans (le_listMax z ys) (le_max_right _ _)
      · exact le_trans (ih y h1) (le_max_right _ _)

lemma listMax_mem {α : Type} [LinearOrder α] (x : α) (ys : List α) :
    listMax x ys ∈ x :: ys := by
  induction ys generalizing x with
  | nil => simp [listMax]
  | cons y ys ih =>
      show listMax (max x y) ys ∈ x :: y :: ys
      rcases List.mem_cons.mp (ih (max x y)) with h1 | h1
      · rw [h1]
        rcases max_choice x y with hc | hc <;> rw [hc]
        · exact List.mem_cons_self _ _
        · exact List.mem_cons_of_mem _ (List.mem_cons_self _ _)
      · exact List.mem_cons_of_mem _ (List.mem_cons_of_mem _ h1)

lemma getD_le_listMax {α : Type} [LinearOrder α] (x : α) (xs : List α) (d : α) :
    ∀ i, i < (x :: xs).length → (x :: xs).getD i d ≤ listMax x xs := by
  intro i hi
  match i with
  | 0 => simpa [List.getD_cons_zero] using le_listMax x xs
  | Nat.succ j =>
      have hj : j < xs.length := by simpa using hi
      have hmem : xs.getD j d ∈ xs := by
        rw [List.getD_eq_getElem xs d hj]
        exact List.getElem_mem hj
      simpa [List.getD_cons_succ] using mem_le_listMax x xs hmem

lemma getD_idxOfMax {α : Type} [LinearOrder α] (x : α) (xs : List α) (d : α) :
    (x :: xs).getD (idxOfMax (x :: xs)) d = listMax x xs := by
  induction xs generalizing x with
  | nil => simp [idxOfMax, listMax]
  | cons y ys ih =>
      by_cases h : listMax y ys ≤ x
      · simp [idxOfMax, h, listMax_cons, max_eq_left h]
      · have hx : x ≤ listMax y ys := le_of_not_le h
        have hidx : idxOfMax (x :: y :: ys) = idxOfMax (y :: ys) + 1 := by
          simp [idxOfMax, h]
        rw [hidx, List.getD_cons_succ, ih y, listMax_cons, max_eq_right hx]

lemma idxOfMax_lt_length {α : Type} [LinearOrder α] (x : α) (xs : List α) :
    idxOfMax (x :: xs) < (x :: xs).length := by
  induction xs generalizing x with
  | nil => simp [idxOfMax]
  | cons y ys ih =>
      by_cases h : listMax y ys ≤ x
      · simp [idxOfMax, h]
      · have hy := ih y
        simp only [List.length_cons] at hy
        simp only [idxOfMax, h, if_false, List.length_cons]
        omega

lemma getD_le_getD_idxOfMax {α : Type} [LinearOrder α] (x : α) (xs : List α)
    (d : α) (i : ℕ) (hi : i < (x :: xs).length) :
    (x :: xs).getD i d ≤ (x :: xs).getD (idxOfMax (x :: xs)) d := by
  rw [getD_idxOfMax]
  exact getD_le_listMax x xs d i hi

lemma getD_lt_getD_idxOfMax {α : Type} [LinearOrder α] (x : α) (xs : List α)
    (d : α) (i : ℕ) (hi : i < idxOfMax (x :: xs)) :
    (x :: xs).getD i d < (x :: xs).getD (idxOfMax (x :: xs)) d := by
  induction xs generalizing x i with
  | nil => simp [idxOfMax] at hi
  | cons y ys ih =>
      by_cases h : listMax y ys ≤ x
      · simp [idxOfMax, h] at hi
      · have hidx : idxOfMax (x :: y :: ys) = idxOfMax (y :: ys) + 1 := by
          simp [idxOfMax, h]
        rw [hidx] at hi ⊢
        match i with
        | 0 =>
            rw [List.getD_cons_succ, getD_idxOfMax, List.getD_cons_zero]
            exact not_le.mp h
        | Nat.succ j =>
            have hj : j < idxOfMax (y :: ys) := Nat.lt_of_succ_lt_succ hi
            rw [List.getD_cons_succ, List.getD_cons_succ]
            exact ih y j hj

lemma idxOfMax_eq_zero {α : Type} [LinearOrder α] (x : α) (xs : List α)
    (h : ∀ z ∈ xs, z ≤ x) : idxOfMax (x :: xs) = 0 := by
  match xs with
  | [] => rfl
  | y :: ys =>
      have hm : listMax y ys ≤ x := h _ (listMax_mem y ys)
      simp [idxOfMax, hm]

/-! ### `getD` bookkeeping lemmas -/

lemma getD_set_same {α : Type} :
    ∀ (l : List α) (n : ℕ) (x d : α), n < l.length →
      (l.set n x).getD n d = x := by
  intro l
  induction l with
  | nil => intro n x d h; simp at h
  | cons a l ih =>
      intro n x d h
      match n with
      | 0 => rfl
      | Nat.succ m =>
          have hm : m < l.length := by simpa using h
          simpa [List.set, List.getD_cons_succ] using ih m x d hm

lemma getD_set_other {α : Type} :
    ∀ (l : List α) (m n : ℕ) (x d : α), m ≠ n →
      (l.set m x).getD n d = l.getD n d := by
  intro l
  induction l with
  | nil => intro m n x d _; rfl
  | cons a l ih =>
      intro m n x d hmn
      match m, n with
      | 0, 0 => exact absurd rfl hmn
      | 0, Nat.succ k => rfl
      | Nat.succ j, 0 => rfl
      | Nat.succ j, Nat.succ k =>
          have hjk : j ≠ k := fun hh => hmn (by rw [hh])
          simpa [List.set, List.getD_cons_succ] using ih j k x d hjk

lemma getD_append_lt {α : Type} :
    ∀ (l₁ l₂ : List α) (n : ℕ) (d : α), n < l₁.length →
      (l₁ ++ l₂).getD n d = l₁.getD n d := by
  intro l₁
  induction l₁ with
  | nil => intro l₂ n d h; simp at h
  | cons a l ih =>
      intro l₂ n d h
      match n with
      | 0 => rfl
      | Nat.succ m =>
          have hm : m < l.length := by simpa using h
          simpa [List.getD_cons_succ] using ih l₂ m d hm

lemma getD_append_length {α : Type} :
    ∀ (l : List α) (y d : α), (l ++ [y]).getD l.length d = y := by
  intro l
  induction l with
  | nil => intro y d; rfl
  | cons a l ih => intro y d; exact ih y d

lemma getD_append_at {α : Type} (l : List α) (y d : α) (t : ℕ)
    (h : l.length = t) : (l ++ [y]).getD t d = y := by
  subst h
  exact getD_append_length l y d

lemma take_append_at {α : Type} (l : List α) (y : α) (t : ℕ)
    (h : l.length = t) : (l ++ [y]).take (t + 1) = l ++ [y] := by
  have hlen : (l ++ [y]).length = t + 1 := by simp [h]
  rw [← hlen, List.take_length]

lemma getD_replicate {α : Type} (x d : α) :
    ∀ (n i : ℕ), i < n → (List.replicate n x).getD i d = x := by
  intro n
  induction n with
  | zero => intro i h; omega
  | succ m ih =>
      intro i h
      match i with
      | 0 => rfl
      | Nat.succ j =>
          have hj : j < m := by omega
          exact ih j hj

lemma getD_map_range {α : Type} (f : ℕ → α) (d : α) :
    ∀ (n i : ℕ), i < n → ((List.range n).map f).getD i d = f i := by
  intro n
  induction n with
  | zero => intro i h; omega
  | succ m ih =>
      intro i h
      rw [List.range_succ, List.map_append]
      rcases Nat.lt_or_ge i m with h1 | h1
      · rw [getD_append_lt _ _ i d (by simpa using h1)]
        exact ih i h1
      · have hi : i = m := by omega
        subst hi
        have hl : ((List.range i).map f).length = i := by simp
        show ((List.range i).map f ++ [f i]).getD i d = f i
        calc ((List.range i).map f ++ [f i]).getD i d
            = ((List.range i).map f ++ [f i]).getD ((List.range i).map f).length d := by
              rw [hl]
          _ = f i := getD_append_length _ _ _

/-! ### Value estimator (source lines 58-60 and 89-90) -/

/-- One incremental update of the value estimator: the embedding of
`counts[arm] += 1; values[arm] += (reward - values[arm]) / counts[arm]`,
where the division uses the freshly incremented count. -/
def estUpdate (counts : List ℕ) (values : List ℚ) (arm : ℕ) (reward : ℚ) :
    List ℕ × List ℚ :=
  let newCount := counts.getD arm 0 + 1
  (counts.set arm newCount,
   values.set arm
     (values.getD arm 0 + (reward - values.getD arm 0) / (newCount : ℚ)))

/-- Folding step for a whole sequence of estimator updates. -/
def estFoldF (cv : List ℕ × List ℚ) (p : ℕ × ℚ) : List ℕ × List ℚ :=
  estUpdate cv.1 cv.2 p.1 p.2

/-- Applying a sequence of (arm, reward) updates to a fresh estimator with
`numArms` arms, exactly the state evolution both learning runs perform. -/
def estRun (numArms : ℕ) (updates : List (ℕ × ℚ)) : List ℕ × List ℚ :=
  updates.foldl estFoldF
    (List.replicate numArms 0, List.replicate numArms (0 : ℚ))

lemma estUpdate_length_fst (c : List ℕ) (v : List ℚ) (b : ℕ) (r : ℚ) :
    (estUpdate c v b r).1.length = c.length := by
  simp [estUpdate]

lemma estUpdate_length_snd (c : List ℕ) (v : List ℚ) (b : ℕ) (r : ℚ) :
    (estUpdate c v b r).2.length = v.length := by
  simp [estUpdate]

lemma estFold_inv (a : ℕ) :
    ∀ (updates : List (ℕ × ℚ)) (c : List ℕ) (v : List ℚ),
      a < c.length → a < v.length →
      (updates.foldl estFoldF (c, v)).1.length = c.length ∧
      (updates.foldl estFoldF (c, v)).2.length = v.length ∧
      (updates.foldl estFoldF (c, v)).1.getD a 0 =
        c.getD a 0 + (updates.filter (fun p => p.1 == a)).length ∧
      (updates.foldl estFoldF (c, v)).2.getD a 0 *
          (((updates.foldl estFoldF (c, v)).1.getD a 0 : ℕ) : ℚ) =
        v.getD a 0 * ((c.getD a 0 : ℕ) : ℚ) +
          ((updates.filter (fun p => p.1 == a)).map Prod.snd).sum := by
  intro updates
  induction updates with
  | nil => intro c v hc hv; simp
  | cons p rest ih =>
      intro c v hc hv
      obtain ⟨b, r⟩ := p
      have hc1 : a < (estUpdate c v b r).1.length := by
        rw [estUpdate_length_fst]; exact hc
      have hv1 : a < (estUpdate c v b r).2.length := by
        rw [estUpdate_length_snd]; exact hv
      have hstep : ((b, r) :: rest).foldl estFoldF (c, v) =
          rest.foldl estFoldF ((estUpdate c v b r).1, (estUpdate c v b r).2) := by
        simp [List.foldl_cons, estFoldF]
      obtain ⟨ihl1, ihl2, ihc, ihv⟩ :=
        ih (estUpdate c v b r).1 (estUpdate c v b r).2 hc1 hv1
      by_cases hba : b = a
      · subst hba
        have hcget : (estUpdate c v b r).1.getD b 0 = c.getD b 0 + 1 := by
          simp only [estUpdate]
          exact getD_set_same c b _ 0 hc
        have hvget : (estUpdate c v b r).2.getD b 0 =
            v.getD b 0 + (r - v.getD b 0) / ((c.getD b 0 + 1 : ℕ) : ℚ) := by
          simp only [estUpdate]
          exact getD_set_same v b _ 0 hv
        have hfilter : (((b, r) :: rest).filter (fun p => p.1 == b)) =
            (b, r) :: rest.filter (fun p => p.1 == b) := by
          simp [List.filter_cons]
        refine ⟨?_, ?_, ?_, ?_⟩
        · rw [hstep, ihl1, estUpdate_length_fst]
        · rw [hstep, ihl2, estUpdate_length_snd]
        · rw [hstep, ihc, hcget, hfilter]
          simp only [List.length_cons]
          omega
        · rw [hstep, ihv, hcget, hvget, hfilter]
          have hne : ((c.getD b 0 + 1 : ℕ) : ℚ) ≠ 0 := by
            exact_mod_cast Nat.succ_ne_zero (c.getD b 0)
          have hmul : (v.getD b 0 + (r - v.getD b 0) / ((c.getD b 0 + 1 : ℕ) : ℚ)) *
              ((c.getD b 0 + 1 : ℕ) : ℚ) =
              v.getD b 0 * ((c.getD b 0 : ℕ) : ℚ) + r := by
            push_cast
            field_simp
            ring
          rw [hmul]
          simp only [List.map_cons, List.sum_cons]
          ring
      · have hcget : (estUpdate c v b r).1.getD a 0 = c.getD a 0 := by
          simp only [estUpdate]
          exact getD_set_other c b a _ 0 hba
        have hvget : (estUpdate c v b r).2.getD a 0 = v.getD a 0 := by
          simp only [estUpdate]
          exact getD_set_other v b a _ 0 hba
        have hfilter : (((b, r) :: rest).filter (fun p => p.1 == a)) =
            rest.filter (fun p => p.1 == a) := by
          simp [List.filter_cons, hba]
        refine ⟨?_, ?_, ?_, ?_⟩
        · rw [hstep, ihl1, estUpdate_length_fst]
        · rw [hstep, ihl2, estUpdate_length_snd]
        · rw [hstep, ihc, hcget, hfilter]
        · rw [hstep, ihv, hcget, hvget, hfilter]

/-- Claim C1: after an arm `a` has received `k ≥ 1` updates with rewards
`r_1..r_k`, arbitrarily interleaved with updates to other arms, the
incremental update rule leaves `count[a] = k` and
`values[a] = (r_1 + ... + r_k) / k`, the exact arithmetic mean. -/
theorem C1_estimator_mean (numArms : ℕ) (updates : List (ℕ × ℚ)) (a : ℕ)
    (ha : a < numArms)
    (hk : 1 ≤ (updates.filter (fun p => p.1 == a)).length) :
    (estRun numArms updates).1.getD a 0 =
      (updates.filter (fun p => p.1 == a)).length ∧
    (estRun numArms updates).2.getD a 0 =
      ((updates.filter (fun p => p.1 == a)).map Prod.snd).sum /
        (((updates.filter (fun p => p.1 == a)).length : ℕ) : ℚ) := by
  have h := estFold_inv a updates (List.replicate numArms 0)
    (List.replicate numArms (0 : ℚ)) (by simpa) (by simpa)
  obtain ⟨-, -, hcount, hval⟩ := h
  rw [getD_replicate _ _ numArms a ha] at hcount
  rw [getD_replicate _ _ numArms a ha] at hval
  simp only [Nat.zero_add] at hcount
  rw [show estRun numArms updates =
      updates.foldl estFoldF
        (List.replicate numArms 0, List.replicate numArms (0 : ℚ)) from rfl]
  refine ⟨hcount, ?_⟩
  rw [hcount] at hval
  have hne : (((updates.filter (fun p => p.1 == a)).length : ℕ) : ℚ) ≠ 0 := by
    have : (updates.filter (fun p => p.1 == a)).length ≠ 0 := by omega
    exact_mod_cast this
  rw [eq_div_iff hne]
  rw [hval]
  ring

/-- Witness for C1 at a concrete update sequence: arm 0 is pulled twice with
rewards 1 and 0 while arm 1 is updated in between. -/
theorem C1_estimator_mean_witness :
    0 < 2 ∧
    1 ≤ (([((0 : ℕ), (1 : ℚ)), (1, 0), (0, 0)]).filter
          (fun p => p.1 == 0)).length ∧
    ((estRun 2 [((0 : ℕ), (1 : ℚ)), (1, 0), (0, 0)]).1.getD 0 0 =
      (([((0 : ℕ), (1 : ℚ)), (1, 0), (0, 0)]).filter
        (fun p => p.1 == 0)).length ∧
    (estRun 2 [((0 : ℕ), (1 : ℚ)), (1, 0), (0, 0)]).2.getD 0 0 =
      ((([((0 : ℕ), (1 : ℚ)), (1, 0), (0, 0)]).filter
          (fun p => p.1 == 0)).map Prod.snd).sum /
        (((([((0 : ℕ), (1 : ℚ)), (1, 0), (0, 0)]).filter
            (fun p => p.1 == 0)).length : ℕ) : ℚ)) :=
  ⟨by decide, by decide,
   C1_estimator_mean 2 [((0 : ℕ), (1 : ℚ)), (1, 0), (0, 0)] 0
     (by decide) (by decide)⟩

/-! ### Bandit setup: the configuration constants of the source -/

def NUM_ARMS : ℕ := 5

def NUM_STEPS : ℕ := 1000

def NUM_RUNS : ℕ := 50

def EPSILON : ℚ := 1 / 10

def TRUE_MEANS : List ℚ := [1/5, 2/5, 4/5, 3/10, 3/5]

/-- The embedding of `pull_arm`: Bernoulli reward — 1 when the uniform draw `u` is strictly
below the arm's true mean, else 0.  The uniform draw becomes an explicit
oracle input. -/
def pull_arm (trueMeans : List ℚ) (u : ℚ) (armIndex : ℕ) : ℚ :=
  if u < trueMeans.getD armIndex 0 then 1 else 0

/-! ### Run state and the shared loop tail -/

/-- State threaded through one run.  `counts`, `values`, `total`, `rewards`
are the source's loop variables; `arms` and `raw` are ghost traces recording,
for each executed step, the selected arm and the reward obtained.  They are
write-only and never read by any step. -/
structure RunState where
  counts : List ℕ
  values : List ℚ
  total : ℚ
  rewards : List ℚ
  arms : List ℕ
  raw : List ℚ

/-- Fresh state at the start of a run: all counts 0, all estimates 0. -/
def initState (numArms : ℕ) : RunState :=
  ⟨List.replicate numArms 0, List.replicate numArms 0, 0, [], [], []⟩

/-- Common tail of every loop body: add the reward of step `step` taken on
arm `arm` to the total, append the running average `total / (step + 1)`, and
install the (already updated) estimator state. -/
def accum (s : RunState) (step arm : ℕ) (reward : ℚ)
    (counts2 : List ℕ) (values2 : List ℚ) : RunState :=
  ⟨counts2, values2, s.total + reward,
   s.rewards ++ [(s.total + reward) / ((step : ℚ) + 1)],
   s.arms ++ [arm], s.raw ++ [reward]⟩

@[simp] lemma accum_counts (s : RunState) (step arm : ℕ) (reward : ℚ)
    (c2 : List ℕ) (v2 : List ℚ) : (accum s step arm reward c2 v2).counts = c2 := rfl

@[simp] lemma accum_values (s : RunState) (step arm : ℕ) (reward : ℚ)
    (c2 : List ℕ) (v2 : List ℚ) : (accum s step arm reward c2 v2).values = v2 := rfl

@[simp] lemma accum_total (s : RunState) (step arm : ℕ) (reward : ℚ)
    (c2 : List ℕ) (v2 : List ℚ) :
    (accum s step arm reward c2 v2).total = s.total + reward := rfl

@[simp] lemma accum_rewards (s : RunState) (step arm : ℕ) (reward : ℚ)
    (c2 : List ℕ) (v2 : List ℚ) :
    (accum s step arm reward c2 v2).rewards =
      s.rewards ++ [(s.total + reward) / ((step : ℚ) + 1)] := rfl

@[simp] lemma accum_arms (s : RunState) (step arm : ℕ) (reward : ℚ)
    (c2 : List ℕ) (v2 : List ℚ) :
    (accum s step arm reward c2 v2).arms = s.arms ++ [arm] := rfl

@[simp] lemma accum_raw (s : RunState) (step arm : ℕ) (reward : ℚ)
    (c2 : List ℕ) (v2 : List ℚ) :
    (accum s step arm reward c2 v2).raw = s.raw ++ [reward] := rfl

/-- A run is a fold of its loop body over the step indices `0..numSteps-1`. -/
def stepRun (stepF : ℕ → RunState → RunState) (numArms numSteps : ℕ) : RunState :=
  (List.range numSteps).foldl (fun s k => stepF k s) (initState numArms)

/-- A loop body that ends in `accum` — all three policies do. -/
def IsAccumStep (stepF : ℕ → RunState → RunState) : Prop :=
  ∀ k s, ∃ arm reward c2 v2, stepF k s = accum s k arm reward c2 v2

lemma stepRun_succ (stepF : ℕ → RunState → RunState) (numArms n : ℕ) :
    stepRun stepF numArms (n + 1) = stepF n (stepRun stepF numArms n) := by
  simp [stepRun, List.range_succ]

/-! ### The three policies -/

/-- Oracle draws consumed by one epsilon-greedy step: `e` is the value of
`random.random()` tested against ε, `a` is the arm yielded by
`random.randint(0, NUM_ARMS - 1)` when exploring, `u` is the uniform draw
inside `pull_arm`. -/
structure EGDraw where
  e : ℚ
  a : ℕ
  u : ℚ

/-- Arm selection of epsilon-greedy: explore when the draw is below ε,
otherwise the first index of the maximal estimate
(the embedding of looking `values` up at the position of its maximum). -/
def egSelect (epsilon : ℚ) (d : EGDraw) (values : List ℚ) : ℕ :=
  if d.e < epsilon then d.a else idxOfMax values

/-- One loop iteration of `run_epsilon_greedy`. -/
def egStep (trueMeans : List ℚ) (epsilon : ℚ) (d : EGDraw) (step : ℕ)
    (s : RunState) : RunState :=
  let arm := egSelect epsilon d s.values
  let reward := pull_arm trueMeans d.u arm
  let cv := estUpdate s.counts s.values arm reward
  accum s step arm reward cv.1 cv.2

/-- The loop body family of `run_epsilon_greedy` with its oracle. -/
def egStepF (trueMeans : List ℚ) (epsilon : ℚ) (draws : ℕ → EGDraw) :
    ℕ → RunState → RunState :=
  fun step s => egStep trueMeans epsilon (draws step) step s

/-- The embedding of `run_epsilon_greedy`. -/
def run_epsilon_greedy (trueMeans : List ℚ) (numArms numSteps : ℕ)
    (epsilon : ℚ) (draws : ℕ → EGDraw) : RunState :=
  stepRun (egStepF trueMeans epsilon draws) numArms numSteps

/-- UCB score of arm `a`:
`values[a] + sqrt(2 * log(step + 1) / counts[a])`. -/
noncomputable def ucbScore (counts : List ℕ) (values : List ℚ)
    (step a : ℕ) : ℝ :=
  (values.getD a 0 : ℝ) +
    Real.sqrt (2 * Real.log ((step : ℝ) + 1) / ((counts.getD a 0 : ℕ) : ℝ))

/-- The list comprehension of UCB scores over all arms. -/
noncomputable def ucbScores (numArms : ℕ) (counts : List ℕ) (values : List ℚ)
    (step : ℕ) : List ℝ :=
  (List.range numArms).map (fun a => ucbScore counts values step a)

/-- Arm selection of UCB1: the warm-up pulls arm `step` for the first
`numArms` steps, afterwards the first index of the maximal score. -/
noncomputable def ucbSelect (numArms : ℕ) (counts : List ℕ) (values : List ℚ)
    (step : ℕ) : ℕ :=
  if step < numArms then step
  else idxOfMax (ucbScores numArms counts values step)

/-- One loop iteration of `run_ucb`; `u` is the uniform draw of `pull_arm`. -/
noncomputable def ucbStep (trueMeans : List ℚ) (numArms : ℕ) (u : ℚ)
    (step : ℕ) (s : RunState) : RunState :=
  let arm := ucbSelect numArms s.counts s.values step
  let reward := pull_arm trueMeans u arm
  let cv := estUpdate s.counts s.values arm reward
  accum s step arm reward cv.1 cv.2

/-- The loop body family of `run_ucb` with its oracle. -/
noncomputable def ucbStepF (trueMeans : List ℚ) (numArms : ℕ)
    (draws : ℕ → ℚ) : ℕ → RunState → RunState :=
  fun step s => ucbStep trueMeans numArms (draws step) step s

/-- The embedding of `run_ucb`. -/
noncomputable def run_ucb (trueMeans : List ℚ) (numArms numSteps : ℕ)
    (draws : ℕ → ℚ) : RunState :=
  stepRun (ucbStepF trueMeans numArms draws) numArms numSteps

/-- Oracle draws of one random-baseline step: the arm from
`random.randint(0, NUM_ARMS - 1)` and the uniform draw of `pull_arm`. -/
structure RndDraw where
  a : ℕ
  u : ℚ

/-- One loop iteration of `run_random`: no estimator state is touched. -/
def rndStep (trueMeans : List ℚ) (d : RndDraw) (step : ℕ)
    (s : RunState) : RunState :=
  accum s step d.a (pull_arm trueMeans d.u d.a) s.counts s.values

/-- The loop body family of `run_random` with its oracle. -/
def rndStepF (trueMeans : List ℚ) (draws : ℕ → RndDraw) :
    ℕ → RunState → RunState :=
  fun step s => rndStep trueMeans (draws step) step s

/-- The embedding of `run_random`: the source keeps no per-arm state here, so the estimator
lists are empty and never touched. -/
def run_random (trueMeans : List ℚ) (numSteps : ℕ)
    (draws : ℕ → RndDraw) : RunState :=
  stepRun (rndStepF trueMeans draws) 0 numSteps

lemma egStepF_isAccum (trueMeans : List ℚ) (epsilon : ℚ)
    (draws : ℕ → EGDraw) : IsAccumStep (egStepF trueMeans epsilon draws) := by
  intro k s
  exact ⟨_, _, _, _, rfl⟩

lemma ucbStepF_isAccum (trueMeans : List ℚ) (numArms : ℕ)
    (draws : ℕ → ℚ) : IsAccumStep (ucbStepF trueMeans numArms draws) := by
  intro k s
  exact ⟨_, _, _, _, rfl⟩

lemma rndStepF_isAccum (trueMeans : List ℚ) (draws : ℕ → RndDraw) :
    IsAccumStep (rndStepF trueMeans draws) := by
  intro k s
  exact ⟨_, _, _, _, rfl⟩

/-! ### Generic trace facts about any accumulating run -/

lemma stepRun_traces (stepF : ℕ → RunState → RunState) (h : IsAccumStep stepF)
    (numArms : ℕ) :
    ∀ n, (stepRun stepF numArms n).rewards.length = n ∧
      (stepRun stepF numArms n).raw.length = n ∧
      (stepRun stepF numArms n).arms.length = n ∧
      (stepRun stepF numArms n).total = (stepRun stepF numArms n).raw.sum := by
  intro n
  induction n with
  | zero => simp [stepRun, initState]
  | succ m ih =>
      obtain ⟨h1, h2, h3, h4⟩ := ih
      obtain ⟨arm, reward, c2, v2, heq⟩ := h m (stepRun stepF numArms m)
      rw [stepRun_succ, heq]
      simp [h1, h2, h3, h4]

lemma stepRun_rewards_getD (stepF : ℕ → RunState → RunState)
    (h : IsAccumStep stepF) (numArms : ℕ) :
    ∀ n t, t < n → (stepRun stepF numArms n).rewards.getD t 0 =
      ((stepRun stepF numArms n).raw.take (t + 1)).sum / ((t : ℚ) + 1) := by
  intro n
  induction n with
  | zero => intro t ht; omega
  | succ m ih =>
      intro t ht
      obtain ⟨h1, h2, h3, h4⟩ := stepRun_traces stepF h numArms m
      obtain ⟨arm, reward, c2, v2, heq⟩ := h m (stepRun stepF numArms m)
      rw [stepRun_succ, heq, accum_rewards, accum_raw]
      rcases Nat.lt_or_ge t m with h5 | h5
      · rw [List.take_append_of_le_length (by omega),
          getD_append_lt _ _ t 0 (by omega)]
        exact ih t h5
      · have ht2 : t = m := by omega
        subst ht2
        rw [take_append_at _ _ _ h2, getD_append_at _ _ _ _ h1,
          List.sum_append, ← h4]
        simp

lemma stepRun_arms_stable (stepF : ℕ → RunState → RunState)
    (h : IsAccumStep stepF) (numArms : ℕ) :
    ∀ n m, n ≤ m → ∀ t, t < n →
      (stepRun stepF numArms m).arms.getD t 0 =
        (stepRun stepF numArms n).arms.getD t 0 := by
  intro n m
  induction m with
  | zero => intro hnm t ht; omega
  | succ k ih =>
      intro hnm t ht
      by_cases hnk : n = k + 1
      · rw [hnk]
      · have hn : n ≤ k := by omega
        obtain ⟨-, -, h3, -⟩ := stepRun_traces stepF h numArms k
        obtain ⟨arm, reward, c2, v2, heq⟩ := h k (stepRun stepF numArms k)
        rw [stepRun_succ, heq, accum_arms,
          getD_append_lt _ _ t 0 (by omega)]
        exact ih hn t ht

/-! ### Further helpers on `idxOfMax` and `List.set` -/

lemma set_of_ge_length {α : Type} :
    ∀ (l : List α) (n : ℕ) (x : α), l.length ≤ n → l.set n x = l := by
  intro l
  induction l with
  | nil => intro n x _; rfl
  | cons a l ih =>
      intro n x h
      match n with
      | 0 => simp at h
      | Nat.succ m =>
          have hm : l.length ≤ m := by simpa using h
          simp [List.set, ih m x hm]

lemma idxOfMax_lt_length_of_ne {α : Type} [LinearOrder α] (l : List α)
    (h : l ≠ []) : idxOfMax l < l.length := by
  cases l with
  | nil => exact absurd rfl h
  | cons x xs => exact idxOfMax_lt_length x xs

lemma getD_le_idxOfMax_of_lt {α : Type} [LinearOrder α] (l : List α) (d : α)
    (i : ℕ) (hi : i < l.length) :
    l.getD i d ≤ l.getD (idxOfMax l) d := by
  cases l with
  | nil => simp at hi
  | cons x xs => exact getD_le_getD_idxOfMax x xs d i hi

lemma getD_lt_idxOfMax_of_lt {α : Type} [LinearOrder α] (l : List α) (d : α)
    (i : ℕ) (hi : i < idxOfMax l) :
    l.getD i d < l.getD (idxOfMax l) d := by
  cases l with
  | nil => simp [idxOfMax] at hi
  | cons x xs => exact getD_lt_getD_idxOfMax x xs d i hi

lemma pull_arm_nonneg (trueMeans : List ℚ) (u : ℚ) (i : ℕ) :
    0 ≤ pull_arm trueMeans u i := by
  unfold pull_arm
  split <;> norm_num

lemma pull_arm_le_one (trueMeans : List ℚ) (u : ℚ) (i : ℕ) :
    pull_arm trueMeans u i ≤ 1 := by
  unfold pull_arm
  split <;> norm_num

/-! ### Per-run state facts -/

lemma egStep_counts_length (tm : List ℚ) (ε : ℚ) (d : EGDraw) (step : ℕ)
    (s : RunState) : (egStep tm ε d step s).counts.length = s.counts.length := by
  simp [egStep, estUpdate_length_fst]

lemma egStep_values_length (tm : List ℚ) (ε : ℚ) (d : EGDraw) (step : ℕ)
    (s : RunState) : (egStep tm ε d step s).values.length = s.values.length := by
  simp [egStep, estUpdate_length_snd]

lemma ucbStep_counts_length (tm : List ℚ) (na : ℕ) (u : ℚ) (step : ℕ)
    (s : RunState) : (ucbStep tm na u step s).counts.length = s.counts.length := by
  simp [ucbStep, estUpdate_length_fst]

lemma ucbStep_values_length (tm : List ℚ) (na : ℕ) (u : ℚ) (step : ℕ)
    (s : RunState) : (ucbStep tm na u step s).values.length = s.values.length := by
  simp [ucbStep, estUpdate_length_snd]

lemma run_eg_lengths (tm : List ℚ) (ε : ℚ) (draws : ℕ → EGDraw) (na : ℕ) :
    ∀ n, (run_epsilon_greedy tm na n ε draws).counts.length = na ∧
      (run_epsilon_greedy tm na n ε draws).values.length = na := by
  intro n
  induction n with
  | zero => simp [run_epsilon_greedy, stepRun, initState]
  | succ m ih =>
      unfold run_epsilon_greedy at ih ⊢
      rw [stepRun_succ]
      exact ⟨(egStep_counts_length tm ε (draws m) m _).trans ih.1,
        (egStep_values_length tm ε (draws m) m _).trans ih.2⟩

lemma run_ucb_lengths (tm : List ℚ) (draws : ℕ → ℚ) (na : ℕ) :
    ∀ n, (run_ucb tm na n draws).counts.length = na ∧
      (run_ucb tm na n draws).values.length = na := by
  intro n
  induction n with
  | zero => simp [run_ucb, stepRun, initState]
  | succ m ih =>
      unfold run_ucb at ih ⊢
      rw [stepRun_succ]
      exact ⟨(ucbStep_counts_length tm na (draws m) m _).trans ih.1,
        (ucbStep_values_length tm na (draws m) m _).trans ih.2⟩

/-- The arm recorded for step `t` of an epsilon-greedy run is the selection
the policy makes from the estimator state reached after `t` steps. -/
lemma run_eg_arm_at (tm : List ℚ) (na ns : ℕ) (ε : ℚ) (draws : ℕ → EGDraw)
    (t : ℕ) (ht : t < ns) :
    (run_epsilon_greedy tm na ns ε draws).arms.getD t 0 =
      egSelect ε (draws t) (run_epsilon_greedy tm na t ε draws).values := by
  unfold run_epsilon_greedy
  rw [stepRun_arms_stable _ (egStepF_isAccum tm ε draws) na (t + 1) ns
    (by omega) t (by omega)]
  rw [stepRun_succ]
  obtain ⟨-, -, h3, -⟩ := stepRun_traces _ (egStepF_isAccum tm ε draws) na t
  exact getD_append_at (stepRun (egStepF tm ε draws) na t).arms
    (egSelect ε (draws t) (stepRun (egStepF tm ε draws) na t).values) 0 t h3

/-- The arm recorded for step `t` of a UCB run is the selection the policy
makes from the estimator state reached after `t` steps. -/
lemma run_ucb_arm_at (tm : List ℚ) (na ns : ℕ) (draws : ℕ → ℚ)
    (t : ℕ) (ht : t < ns) :
    (run_ucb tm na ns draws).arms.getD t 0 =
      ucbSelect na (run_ucb tm na t draws).counts
        (run_ucb tm na t draws).values t := by
  unfold run_ucb
  rw [stepRun_arms_stable _ (ucbStepF_isAccum tm na draws) na (t + 1) ns
    (by omega) t (by omega)]
  rw [stepRun_succ]
  obtain ⟨-, -, h3, -⟩ := stepRun_traces _ (ucbStepF_isAccum tm na draws) na t
  exact getD_append_at (stepRun (ucbStepF tm na draws) na t).arms
    (ucbSelect na (stepRun (ucbStepF tm na draws) na t).counts
      (stepRun (ucbStepF tm na draws) na t).values t) 0 t h3

/-! ### UCB warm-up facts -/

/-- A UCB step updates the count of the selected arm and nothing else. -/
lemma ucbStep_counts (tm : List ℚ) (na : ℕ) (u : ℚ) (step : ℕ) (s : RunState) :
    (ucbStep tm na u step s).counts =
      s.counts.set (ucbSelect na s.counts s.values step)
        (s.counts.getD (ucbSelect na s.counts s.values step) 0 + 1) := rfl

/-- After `k ≤ numArms` steps of a UCB run, the arms `0..k-1` have been
pulled exactly once each and all other arms not at all. -/
lemma run_ucb_counts_warmup (tm : List ℚ) (draws : ℕ → ℚ) (na : ℕ) :
    ∀ k, k ≤ na → ∀ a, a < na →
      (run_ucb tm na k draws).counts.getD a 0 = if a < k then 1 else 0 := by
  intro k
  induction k with
  | zero =>
      intro _ a ha
      simp [run_ucb, stepRun, initState, getD_replicate _ _ na a ha]
  | succ m ih =>
      intro hm a ha
      have hmna : m < na := by omega
      have harm : ucbSelect na (run_ucb tm na m draws).counts
          (run_ucb tm na m draws).values m = m := by
        unfold ucbSelect
        rw [if_pos hmna]
      have hlen : (run_ucb tm na m draws).counts.length = na :=
        (run_ucb_lengths tm draws na m).1
      have hstep : run_ucb tm na (m + 1) draws =
          ucbStep tm na (draws m) m (run_ucb tm na m draws) :=
        stepRun_succ _ _ _
      rw [hstep, ucbStep_counts, harm]
      by_cases hma : a = m
      · subst hma
        have h0 := ih (by omega) a ha
        rw [if_neg (lt_irrefl a)] at h0
        rw [getD_set_same _ a _ 0 (by omega), h0, if_pos (Nat.lt_succ_self a)]
      · rw [getD_set_other _ m a _ 0 (fun hh => hma hh.symm)]
        rw [ih (by omega) a ha]
        have : a < m + 1 ↔ a < m := by omega
        simp [this]

/-- Counts never decrease from one UCB step to the next. -/
lemma run_ucb_counts_mono (tm : List ℚ) (draws : ℕ → ℚ) (na : ℕ) (n a : ℕ) :
    (run_ucb tm na n draws).counts.getD a 0 ≤
      (run_ucb tm na (n + 1) draws).counts.getD a 0 := by
  have hstep : run_ucb tm na (n + 1) draws =
      ucbStep tm na (draws n) n (run_ucb tm na n draws) :=
    stepRun_succ _ _ _
  rw [hstep, ucbStep_counts]
  by_cases harm : ucbSelect na (run_ucb tm na n draws).counts
      (run_ucb tm na n draws).values n = a
  · rw [harm]
    by_cases hlt : a < (run_ucb tm na n draws).counts.length
    · rw [getD_set_same _ a _ 0 hlt]
      omega
    · rw [set_of_ge_length _ a _ (by omega)]
  · rw [getD_set_other _ _ a _ 0 harm]

/-- From the end of the warm-up on, every arm has been pulled at least once. -/
lemma run_ucb_counts_ge_one (tm : List ℚ) (draws : ℕ → ℚ) (na : ℕ)
    (t a : ℕ) (hna : na ≤ t) (ha : a < na) :
    1 ≤ (run_ucb tm na t draws).counts.getD a 0 := by
  induction t with
  | zero => omega
  | succ m ih =>
      by_cases hm : na ≤ m
      · exact le_trans (ih hm) (run_ucb_counts_mono tm draws na m a)
      · have hm2 : m + 1 = na := by omega
        rw [run_ucb_counts_warmup tm draws na (m + 1) (by omega) a ha]
        rw [if_pos (by omega)]

/-- During the warm-up window the trace of selected arms is exactly
`0, 1, ..., n-1`. -/
lemma run_ucb_arms_warmup (tm : List ℚ) (draws : ℕ → ℚ) (na : ℕ) :
    ∀ n, n ≤ na → (run_ucb tm na n draws).arms = List.range n := by
  intro n
  induction n with
  | zero => intro _; rfl
  | succ m ih =>
      intro hm
      have hstep : run_ucb tm na (m + 1) draws =
          ucbStep tm na (draws m) m (run_ucb tm na m draws) :=
        stepRun_succ _ _ _
      have harm : ucbSelect na (run_ucb tm na m draws).counts
          (run_ucb tm na m draws).values m = m := by
        unfold ucbSelect
        rw [if_pos (by omega)]
      have harms : (ucbStep tm na (draws m) m (run_ucb tm na m draws)).arms =
          (run_ucb tm na m draws).arms ++
            [ucbSelect na (run_ucb tm na m draws).counts
              (run_ucb tm na m draws).values m] := rfl
      rw [hstep, harms, harm, ih (by omega), List.range_succ]

/-- Claim C3: for every step index `t < min(NUM_ARMS, NUM_STEPS)` the UCB run
selects exactly arm `t`, regardless of the random draws. -/
theorem C3_ucb_warmup_order (trueMeans : List ℚ) (numArms numSteps : ℕ)
    (draws : ℕ → ℚ) (t : ℕ) (h1 : t < numArms) (h2 : t < numSteps) :
    (run_ucb trueMeans numArms numSteps draws).arms.getD t 0 = t := by
  rw [run_ucb_arm_at trueMeans numArms numSteps draws t h2]
  unfold ucbSelect
  rw [if_pos h1]

/-- Witness for C3 at step 2 of a 3-step, 5-arm UCB run with zero draws. -/
theorem C3_ucb_warmup_order_witness :
    2 < 5 ∧ 2 < 3 ∧
    (run_ucb TRUE_MEANS 5 3 (fun _ => 0)).arms.getD 2 0 = 2 :=
  ⟨by decide, by decide,
   C3_ucb_warmup_order TRUE_MEANS 5 3 (fun _ => 0) 2 (by decide) (by decide)⟩

/-- Claim C4: with at least one arm, whenever the UCB confidence score is
evaluated — that is, at every executed step index `t` with
`NUM_ARMS ≤ t < NUM_STEPS`, on the state reached after `t` steps — every
arm's count is at least 1, so the division in the score never divides by
zero; and when `NUM_STEPS < NUM_ARMS` every executed step lies in the
warm-up branch (the arm trace is `0..NUM_STEPS-1`), so the score formula is
never evaluated at all. -/
theorem C4_ucb_counts_positive (trueMeans : List ℚ) (numArms numSteps : ℕ)
    (draws : ℕ → ℚ) (_hna : 1 ≤ numArms) :
    (∀ t, numArms ≤ t → t < numSteps → ∀ a, a < numArms →
      1 ≤ (run_ucb trueMeans numArms t draws).counts.getD a 0) ∧
    (numSteps < numArms →
      (run_ucb trueMeans numArms numSteps draws).arms = List.range numSteps) := by
  constructor
  · intro t ht _ a ha
    exact run_ucb_counts_ge_one trueMeans draws numArms t a ht ha
  · intro h
    exact run_ucb_arms_warmup trueMeans draws numArms numSteps (by omega)

/-- Witness for C4 in the 5-arm configuration: at step 5 of a 6-step run all
counts are positive, and a 3-step run stays in the warm-up. -/
theorem C4_ucb_counts_positive_witness :
    1 ≤ 5 ∧
    ((∀ t, 5 ≤ t → t < 6 → ∀ a, a < 5 →
      1 ≤ (run_ucb TRUE_MEANS 5 t (fun _ => 0)).counts.getD a 0) ∧
    (6 < 5 →
      (run_ucb TRUE_MEANS 5 6 (fun _ => 0)).arms = List.range 6)) :=
  ⟨by decide, C4_ucb_counts_positive TRUE_MEANS 5 6 (fun _ => 0) (by decide)⟩

/-! ### First-argmax facts specialised to score tables -/

lemma idxOfMax_map_range_spec {α : Type} [LinearOrder α] (f : ℕ → α) (d : α)
    (n : ℕ) (hn : 1 ≤ n) :
    idxOfMax ((List.range n).map f) < n ∧
    (∀ b, b < n → f b ≤ f (idxOfMax ((List.range n).map f))) ∧
    (∀ b, b < idxOfMax ((List.range n).map f) →
      f b < f (idxOfMax ((List.range n).map f))) := by
  have hlen : ((List.range n).map f).length = n := by simp
  have hne : (List.range n).map f ≠ [] := by
    intro hh
    rw [hh] at hlen
    simp at hlen
    omega
  have hidx : idxOfMax ((List.range n).map f) < n := by
    have h := idxOfMax_lt_length_of_ne _ hne
    omega
  refine ⟨hidx, ?_, ?_⟩
  · intro b hb
    have h := getD_le_idxOfMax_of_lt ((List.range n).map f) d b (by omega)
    rw [getD_map_range f d n b hb, getD_map_range f d n _ hidx] at h
    exact h
  · intro b hb
    have hbn : b < n := lt_trans hb hidx
    have h := getD_lt_idxOfMax_of_lt ((List.range n).map f) d b hb
    rw [getD_map_range f d n b hbn, getD_map_range f d n _ hidx] at h
    exact h

/-- Claim C2: from step `NUM_ARMS` on, the UCB run selects an arm whose
score `values[a] + sqrt(2 * ln(t+1) / counts[a])` — computed on the state
reached after `t` steps — is maximal over all arms, and every arm with a
smaller index has a strictly smaller score (first index on ties). -/
theorem C2_ucb_score_argmax (trueMeans : List ℚ) (numArms numSteps : ℕ)
    (draws : ℕ → ℚ) (t : ℕ) (h1 : numArms ≤ t) (h2 : t < numSteps)
    (h3 : 1 ≤ numArms) :
    (run_ucb trueMeans numArms numSteps draws).arms.getD t 0 < numArms ∧
    (∀ b, b < numArms →
      ucbScore (run_ucb trueMeans numArms t draws).counts
          (run_ucb trueMeans numArms t draws).values t b ≤
        ucbScore (run_ucb trueMeans numArms t draws).counts
          (run_ucb trueMeans numArms t draws).values t
          ((run_ucb trueMeans numArms numSteps draws).arms.getD t 0)) ∧
    (∀ b, b < (run_ucb trueMeans numArms numSteps draws).arms.getD t 0 →
      ucbScore (run_ucb trueMeans numArms t draws).counts
          (run_ucb trueMeans numArms t draws).values t b <
        ucbScore (run_ucb trueMeans numArms t draws).counts
          (run_ucb trueMeans numArms t draws).values t
          ((run_ucb trueMeans numArms numSteps draws).arms.getD t 0)) := by
  have harm : (run_ucb trueMeans numArms numSteps draws).arms.getD t 0 =
      idxOfMax ((List.range numArms).map
        (fun a => ucbScore (run_ucb trueMeans numArms t draws).counts
          (run_ucb trueMeans numArms t draws).values t a)) := by
    rw [run_ucb_arm_at trueMeans numArms numSteps draws t h2]
    unfold ucbSelect
    rw [if_neg (by omega)]
    rfl
  obtain ⟨hi, hle, hlt⟩ := idxOfMax_map_range_spec
    (fun a => ucbScore (run_ucb trueMeans numArms t draws).counts
      (run_ucb trueMeans numArms t draws).values t a) (0 : ℝ) numArms h3
  rw [harm]
  exact ⟨hi, hle, hlt⟩

/-- Witness for C2: step 5 of a 6-step, 5-arm UCB run with zero draws. -/
theorem C2_ucb_score_argmax_witness :
    5 ≤ 5 ∧ 5 < 6 ∧ 1 ≤ 5 ∧
    ((run_ucb TRUE_MEANS 5 6 (fun _ => 0)).arms.getD 5 0 < 5 ∧
    (∀ b, b < 5 →
      ucbScore (run_ucb TRUE_MEANS 5 5 (fun _ => 0)).counts
          (run_ucb TRUE_MEANS 5 5 (fun _ => 0)).values 5 b ≤
        ucbScore (run_ucb TRUE_MEANS 5 5 (fun _ => 0)).counts
          (run_ucb TRUE_MEANS 5 5 (fun _ => 0)).values 5
          ((run_ucb TRUE_MEANS 5 6 (fun _ => 0)).arms.getD 5 0)) ∧
    (∀ b, b < (run_ucb TRUE_MEANS 5 6 (fun _ => 0)).arms.getD 5 0 →
      ucbScore (run_ucb TRUE_MEANS 5 5 (fun _ => 0)).counts
          (run_ucb TRUE_MEANS 5 5 (fun _ => 0)).values 5 b <
        ucbScore (run_ucb TRUE_MEANS 5 5 (fun _ => 0)).counts
          (run_ucb TRUE_MEANS 5 5 (fun _ => 0)).values 5
          ((run_ucb TRUE_MEANS 5 6 (fun _ => 0)).arms.getD 5 0))) :=
  ⟨by decide, by decide, by decide,
   C2_ucb_score_argmax TRUE_MEANS 5 6 (fun _ => 0) 5
     (by decide) (by decide) (by decide)⟩

/-- Claim C5: whenever an epsilon-greedy step takes the exploitation branch
(the exploration draw is not below ε), the selected arm has the maximal
current estimate, and every arm with a smaller index has a strictly smaller
estimate (first index on ties). -/
theorem C5_eg_exploit_argmax (trueMeans : List ℚ) (numArms numSteps : ℕ)
    (epsilon : ℚ) (draws : ℕ → EGDraw) (t : ℕ) (ht : t < numSteps)
    (hexp : ¬ (draws t).e < epsilon) (hna : 1 ≤ numArms) :
    (run_epsilon_greedy trueMeans numArms numSteps epsilon draws).arms.getD t 0 <
      numArms ∧
    (∀ b, b < numArms →
      (run_epsilon_greedy trueMeans numArms t epsilon draws).values.getD b 0 ≤
        (run_epsilon_greedy trueMeans numArms t epsilon draws).values.getD
          ((run_epsilon_greedy trueMeans numArms numSteps epsilon draws).arms.getD
            t 0) 0) ∧
    (∀ b, b < (run_epsilon_greedy trueMeans numArms numSteps epsilon
        draws).arms.getD t 0 →
      (run_epsilon_greedy trueMeans numArms t epsilon draws).values.getD b 0 <
        (run_epsilon_greedy trueMeans numArms t epsilon draws).values.getD
          ((run_epsilon_greedy trueMeans numArms numSteps epsilon draws).arms.getD
            t 0) 0) := by
  have hvlen : (run_epsilon_greedy trueMeans numArms t epsilon draws).values.length =
      numArms := (run_eg_lengths trueMeans epsilon draws numArms t).2
  have harm : (run_epsilon_greedy trueMeans numArms numSteps epsilon
      draws).arms.getD t 0 =
      idxOfMax (run_epsilon_greedy trueMeans numArms t epsilon draws).values := by
    rw [run_eg_arm_at trueMeans numArms numSteps epsilon draws t ht]
    unfold egSelect
    rw [if_neg hexp]
  have hne : (run_epsilon_greedy trueMeans numArms t epsilon draws).values ≠ [] := by
    intro hh
    rw [hh] at hvlen
    simp at hvlen
    omega
  rw [harm]
  refine ⟨?_, ?_, ?_⟩
  · have h := idxOfMax_lt_length_of_ne _ hne
    omega
  · intro b hb
    exact getD_le_idxOfMax_of_lt _ 0 b (by omega)
  · intro b hb
    exact getD_lt_idxOfMax_of_lt _ 0 b hb

/-- Witness for C5: step 0 of a 3-step pure-greedy run (ε = 0) whose
exploration draw 0 is not below ε. -/
theorem C5_eg_exploit_argmax_witness :
    0 < 3 ∧ ¬ ((0 : ℚ) < 0) ∧ 1 ≤ 5 ∧
    ((run_epsilon_greedy TRUE_MEANS 5 3 0
        (fun _ => ⟨0, 0, 0⟩)).arms.getD 0 0 < 5 ∧
    (∀ b, b < 5 →
      (run_epsilon_greedy TRUE_MEANS 5 0 0
          (fun _ => ⟨0, 0, 0⟩)).values.getD b 0 ≤
        (run_epsilon_greedy TRUE_MEANS 5 0 0
          (fun _ => ⟨0, 0, 0⟩)).values.getD
          ((run_epsilon_greedy TRUE_MEANS 5 3 0
            (fun _ => ⟨0, 0, 0⟩)).arms.getD 0 0) 0) ∧
    (∀ b, b < (run_epsilon_greedy TRUE_MEANS 5 3 0
        (fun _ => ⟨0, 0, 0⟩)).arms.getD 0 0 →
      (run_epsilon_greedy TRUE_MEANS 5 0 0
          (fun _ => ⟨0, 0, 0⟩)).values.getD b 0 <
        (run_epsilon_greedy TRUE_MEANS 5 0 0
          (fun _ => ⟨0, 0, 0⟩)).values.getD
          ((run_epsilon_greedy TRUE_MEANS 5 3 0
            (fun _ => ⟨0, 0, 0⟩)).arms.getD 0 0) 0)) :=
  ⟨by decide, by decide, by decide,
   C5_eg_exploit_argmax TRUE_MEANS 5 3 0 (fun _ => ⟨0, 0, 0⟩) 0
     (by decide) (by decide) (by decide)⟩

/-- Claim C6: for each of the three policies, a run's trajectory has length
exactly `numSteps`, and its element at index `t` is the total reward earned
in steps `0..t` (the sum of the first `t+1` raw rewards) divided by `t+1`. -/
theorem C6_trajectory (trueMeans : List ℚ) (numArms numSteps : ℕ)
    (epsilon : ℚ) (d1 : ℕ → EGDraw) (d2 : ℕ → ℚ) (d3 : ℕ → RndDraw)
    (t : ℕ) (ht : t < numSteps) :
    ((run_epsilon_greedy trueMeans numArms numSteps epsilon d1).rewards.length =
        numSteps ∧
      (run_epsilon_greedy trueMeans numArms numSteps epsilon d1).rewards.getD t 0 =
        ((run_epsilon_greedy trueMeans numArms numSteps epsilon
          d1).raw.take (t + 1)).sum / ((t : ℚ) + 1)) ∧
    ((run_ucb trueMeans numArms numSteps d2).rewards.length = numSteps ∧
      (run_ucb trueMeans numArms numSteps d2).rewards.getD t 0 =
        ((run_ucb trueMeans numArms numSteps d2).raw.take (t + 1)).sum /
          ((t : ℚ) + 1)) ∧
    ((run_random trueMeans numSteps d3).rewards.length = numSteps ∧
      (run_random trueMeans numSteps d3).rewards.getD t 0 =
        ((run_random trueMeans numSteps d3).raw.take (t + 1)).sum /
          ((t : ℚ) + 1)) := by
  refine ⟨⟨?_, ?_⟩, ⟨?_, ?_⟩, ⟨?_, ?_⟩⟩
  · exact (stepRun_traces _ (egStepF_isAccum trueMeans epsilon d1) numArms numSteps).1
  · exact stepRun_rewards_getD _ (egStepF_isAccum trueMeans epsilon d1) numArms
      numSteps t ht
  · exact (stepRun_traces _ (ucbStepF_isAccum trueMeans numArms d2) numArms
      numSteps).1
  · exact stepRun_rewards_getD _ (ucbStepF_isAccum trueMeans numArms d2) numArms
      numSteps t ht
  · exact (stepRun_traces _ (rndStepF_isAccum trueMeans d3) 0 numSteps).1
  · exact stepRun_rewards_getD _ (rndStepF_isAccum trueMeans d3) 0 numSteps t ht

/-- Witness for C6: the three runs at 3 steps, inspected at step 1. -/
theorem C6_trajectory_witness :
    1 < 3 ∧
    (((run_epsilon_greedy TRUE_MEANS 5 3 EPSILON (fun _ => ⟨0, 0, 0⟩)).rewards.length =
        3 ∧
      (run_epsilon_greedy TRUE_MEANS 5 3 EPSILON
          (fun _ => ⟨0, 0, 0⟩)).rewards.getD 1 0 =
        ((run_epsilon_greedy TRUE_MEANS 5 3 EPSILON
          (fun _ => ⟨0, 0, 0⟩)).raw.take (1 + 1)).sum / (((1 : ℕ) : ℚ) + 1)) ∧
    ((run_ucb TRUE_MEANS 5 3 (fun _ => 0)).rewards.length = 3 ∧
      (run_ucb TRUE_MEANS 5 3 (fun _ => 0)).rewards.getD 1 0 =
        ((run_ucb TRUE_MEANS 5 3 (fun _ => 0)).raw.take (1 + 1)).sum /
          (((1 : ℕ) : ℚ) + 1)) ∧
    ((run_random TRUE_MEANS 3 (fun _ => ⟨0, 0⟩)).rewards.length = 3 ∧
      (run_random TRUE_MEANS 3 (fun _ => ⟨0, 0⟩)).rewards.getD 1 0 =
        ((run_random TRUE_MEANS 3 (fun _ => ⟨0, 0⟩)).raw.take (1 + 1)).sum /
          (((1 : ℕ) : ℚ) + 1))) :=
  ⟨by decide,
   C6_trajectory TRUE_MEANS 5 3 EPSILON (fun _ => ⟨0, 0, 0⟩) (fun _ => 0)
     (fun _ => ⟨0, 0⟩) 1 (by decide)⟩

/-! ### Pure-greedy runs lock onto arm 0 -/

lemma getD_of_ge_length {α : Type} :
    ∀ (l : List α) (i : ℕ) (d : α), l.length ≤ i → l.getD i d = d := by
  intro l
  induction l with
  | nil => intro i d _; rfl
  | cons a l ih =>
      intro i d h
      match i with
      | 0 => simp at h
      | Nat.succ j => exact ih j d (by simpa using h)

lemma getD_replicate_zero (n i : ℕ) :
    (List.replicate n (0 : ℚ)).getD i 0 = 0 := by
  rcases Nat.lt_or_ge i n with h | h
  · exact getD_replicate _ _ n i h
  · exact getD_of_ge_length _ i 0 (by simpa using h)

lemma idxOfMax_head_nonneg_tail_zero (l : List ℚ) (hlen : 1 ≤ l.length)
    (h0 : 0 ≤ l.getD 0 0) (htail : ∀ b, 1 ≤ b → l.getD b 0 = 0) :
    idxOfMax l = 0 := by
  cases l with
  | nil => simp at hlen
  | cons x xs =>
      apply idxOfMax_eq_zero
      intro z hz
      obtain ⟨⟨j, hj⟩, rfl⟩ := List.mem_iff_get.mp hz
      have hxj : xs.get ⟨j, hj⟩ = (x :: xs).getD (j + 1) 0 := by
        rw [List.getD_cons_succ, List.getD_eq_getElem xs 0 hj]
        exact List.get_eq_getElem xs ⟨j, hj⟩
      rw [hxj, htail (j + 1) (by omega)]
      simpa using h0

lemma estUpdate_snd (c : List ℕ) (v : List ℚ) (arm : ℕ) (r : ℚ) :
    (estUpdate c v arm r).2 =
      v.set arm (v.getD arm 0 + (r - v.getD arm 0) /
        ((c.getD arm 0 + 1 : ℕ) : ℚ)) := rfl

lemma egStep_values_eq (tm : List ℚ) (ε : ℚ) (d : EGDraw) (step : ℕ)
    (s : RunState) :
    (egStep tm ε d step s).values =
      (estUpdate s.counts s.values (egSelect ε d s.values)
        (pull_arm tm d.u (egSelect ε d s.values))).2 := rfl

lemma incr_mean_nonneg (v r : ℚ) (c : ℕ) (hv : 0 ≤ v) (hr : 0 ≤ r) :
    0 ≤ v + (r - v) / ((c + 1 : ℕ) : ℚ) := by
  have hc : ((c + 1 : ℕ) : ℚ) = (c : ℚ) + 1 := by push_cast; ring
  rw [hc]
  have hpos : (0 : ℚ) < (c : ℚ) + 1 := by positivity
  have heq : v + (r - v) / ((c : ℚ) + 1) = (v * (c : ℚ) + r) / ((c : ℚ) + 1) := by
    field_simp
    ring
  rw [heq]
  apply div_nonneg
  · have h1 : 0 ≤ v * (c : ℚ) := mul_nonneg hv (by positivity)
    linarith
  · linarith

/-- In a run with ε = 0 and nonnegative exploration draws, the estimate of
arm 0 stays nonnegative and all other estimates stay 0. -/
lemma run_eg0_values_invariant (tm : List ℚ) (na : ℕ) (draws : ℕ → EGDraw)
    (hna : 1 ≤ na) (hdraws : ∀ s, 0 ≤ (draws s).e) :
    ∀ n, 0 ≤ (run_epsilon_greedy tm na n 0 draws).values.getD 0 0 ∧
      ∀ b, 1 ≤ b → (run_epsilon_greedy tm na n 0 draws).values.getD b 0 = 0 := by
  intro n
  induction n with
  | zero =>
      constructor
      · exact le_of_eq (getD_replicate_zero na 0).symm
      · intro b _
        exact getD_replicate_zero na b
  | succ m ih =>
      obtain ⟨ih0, ihb⟩ := ih
      have hvlen : (run_epsilon_greedy tm na m 0 draws).values.length = na :=
        (run_eg_lengths tm 0 draws na m).2
      have harm : egSelect 0 (draws m)
          (run_epsilon_greedy tm na m 0 draws).values = 0 := by
        unfold egSelect
        rw [if_neg (not_lt.mpr (hdraws m))]
        exact idxOfMax_head_nonneg_tail_zero _ (by omega) ih0 ihb
      have hstep : run_epsilon_greedy tm na (m + 1) 0 draws =
          egStep tm 0 (draws m) m (run_epsilon_greedy tm na m 0 draws) :=
        stepRun_succ _ _ _
      have hvals : (egStep tm 0 (draws m) m
          (run_epsilon_greedy tm na m 0 draws)).values =
          (run_epsilon_greedy tm na m 0 draws).values.set 0
            ((run_epsilon_greedy tm na m 0 draws).values.getD 0 0 +
              (pull_arm tm (draws m).u 0 -
                (run_epsilon_greedy tm na m 0 draws).values.getD 0 0) /
                (((run_epsilon_greedy tm na m 0 draws).counts.getD 0 0 + 1 : ℕ) :
                  ℚ)) := by
        rw [egStep_values_eq, harm, estUpdate_snd]
      constructor
      · rw [hstep, hvals, getD_set_same _ 0 _ 0 (by omega)]
        exact incr_mean_nonneg _ _ _ ih0 (pull_arm_nonneg tm (draws m).u 0)
      · intro b hb
        rw [hstep, hvals, getD_set_other _ 0 b _ 0 (by omega)]
        exact ihb b hb

/-- Claim C10: with ε = 0 (and exploration draws in `[0,1)` as
`random.random()` guarantees, of which only nonnegativity is needed), the
epsilon-greedy run selects arm 0 at every step: estimates start at 0, ties
break to the first index, only the pulled arm's estimate changes, arm 0's
estimate stays nonnegative and all the others stay 0. -/
theorem C10_eg_pure_greedy_selects_zero (trueMeans : List ℚ)
    (numArms numSteps : ℕ) (draws : ℕ → EGDraw) (hna : 1 ≤ numArms)
    (hdraws : ∀ s, 0 ≤ (draws s).e) (t : ℕ) (ht : t < numSteps) :
    (run_epsilon_greedy trueMeans numArms numSteps 0 draws).arms.getD t 0 = 0 := by
  rw [run_eg_arm_at trueMeans numArms numSteps 0 draws t ht]
  unfold egSelect
  rw [if_neg (not_lt.mpr (hdraws t))]
  obtain ⟨h0, hb⟩ := run_eg0_values_invariant trueMeans numArms draws hna hdraws t
  have hvlen : (run_epsilon_greedy trueMeans numArms t 0 draws).values.length =
      numArms := (run_eg_lengths trueMeans 0 draws numArms t).2
  exact idxOfMax_head_nonneg_tail_zero _ (by omega) h0 hb

/-- Witness for C10: a 3-step pure-greedy run with zero draws, step 2. -/
theorem C10_eg_pure_greedy_selects_zero_witness :
    1 ≤ 5 ∧ (∀ s : ℕ, (0 : ℚ) ≤ ((fun _ => (⟨0, 0, 0⟩ : EGDraw)) s).e) ∧ 2 < 3 ∧
    (run_epsilon_greedy TRUE_MEANS 5 3 0
      (fun _ => ⟨0, 0, 0⟩)).arms.getD 2 0 = 0 :=
  ⟨by decide, fun _ => le_refl 0, by decide,
   C10_eg_pure_greedy_selects_zero TRUE_MEANS 5 3 (fun _ => ⟨0, 0, 0⟩)
     (by decide) (fun _ => le_refl 0) 2 (by decide)⟩

/-! ### Absence of configuration validation (claim C8) -/

/-- Counterexample to claim C8 as stated: ε = 2 lies outside `[0,1]`, yet
nothing rejects it — the epsilon-greedy simulation runs and completes all 3
of its steps, so no configuration-validation failure is surfaced before
simulation. -/
theorem C8_counterexample :
    ¬ ((2 : ℚ) ≤ 1) ∧
    (run_epsilon_greedy [1/2] 1 3 2 (fun _ => ⟨0, 0, 0⟩)).rewards.length = 3 := by
  constructor
  · norm_num
  · exact (stepRun_traces _ (egStepF_isAccum [1/2] 2 (fun _ => ⟨0, 0, 0⟩)) 1 3).1

/-- Claim C8 amended: an ε outside `[0,1]` is not rejected and no
configuration-validation failure is surfaced before the simulation.  On an
otherwise valid configuration — a positive arm count, a means list whose
length matches the arm count, and in-range exploration draws, so that every
list access of the source stays in bounds — the epsilon-greedy run uses any
ε as given and executes all `numSteps` steps. -/
theorem C8_amended_epsilon_not_rejected (trueMeans : List ℚ)
    (numArms numSteps : ℕ) (epsilon : ℚ) (draws : ℕ → EGDraw)
    (_hna : 1 ≤ numArms) (_hlen : trueMeans.length = numArms)
    (_hdraws : ∀ s, (draws s).a < numArms) :
    (run_epsilon_greedy trueMeans numArms numSteps epsilon draws).rewards.length =
      numSteps :=
  (stepRun_traces _ (egStepF_isAccum trueMeans epsilon draws) numArms numSteps).1

/-- Witness for the amended C8: a 1-arm, 3-step, otherwise valid
configuration with ε = 2 completes all 3 steps. -/
theorem C8_amended_epsilon_not_rejected_witness :
    1 ≤ 1 ∧ [(1 : ℚ)/2].length = 1 ∧
    (∀ s : ℕ, ((fun _ => (⟨0, 0, 0⟩ : EGDraw)) s).a < 1) ∧
    (run_epsilon_greedy [1/2] 1 3 2 (fun _ => ⟨0, 0, 0⟩)).rewards.length = 3 :=
  ⟨by decide, by decide, fun _ => Nat.zero_lt_one,
   C8_amended_epsilon_not_rejected [1/2] 1 3 2 (fun _ => ⟨0, 0, 0⟩)
     (by decide) (by decide) (fun _ => Nat.zero_lt_one)⟩

/-! ### Multi-run aggregation (average_runs) -/

/-- The embedding of `average_runs`: each run `i < runs` contributes a trajectory
`(results i).1` and, for a learning strategy, final estimates
`(results i).2` (the source appends the estimates only when the strategy is
not `run_random`, which a `none` second component embeds).  The trajectories
are averaged per step; if any final estimates were collected they are
averaged per arm, otherwise the second component is `None`. -/
def average_runs (results : ℕ → List ℚ × Option (List ℚ))
    (runs numSteps numArms : ℕ) : List ℚ × Option (List ℚ) :=
  let all_rewards := (List.range runs).map (fun i => (results i).1)
  let all_final_values := (List.range runs).filterMap (fun i => (results i).2)
  let avg := (List.range numSteps).map (fun step =>
    (((List.range runs).map
      (fun run => (all_rewards.getD run []).getD step 0)).sum) / (runs : ℚ))
  if all_final_values.isEmpty then (avg, none)
  else
    (avg, some ((List.range numArms).map (fun arm =>
      (((List.range runs).map
        (fun run => (all_final_values.getD run []).getD arm 0)).sum) /
        (runs : ℚ))))

/-- Per-run results of repeatedly invoking `run_epsilon_greedy`, one fresh
oracle per run: a trajectory and final estimates each time. -/
def egResults (tm : List ℚ) (numArms numSteps : ℕ) (epsilon : ℚ)
    (draws : ℕ → ℕ → EGDraw) : ℕ → List ℚ × Option (List ℚ) :=
  fun i => ((run_epsilon_greedy tm numArms numSteps epsilon (draws i)).rewards,
    some (run_epsilon_greedy tm numArms numSteps epsilon (draws i)).values)

/-- Per-run results of repeatedly invoking `run_ucb`. -/
noncomputable def ucbResults (tm : List ℚ) (numArms numSteps : ℕ)
    (draws : ℕ → ℕ → ℚ) : ℕ → List ℚ × Option (List ℚ) :=
  fun i => ((run_ucb tm numArms numSteps (draws i)).rewards,
    some (run_ucb tm numArms numSteps (draws i)).values)

/-- Per-run results of repeatedly invoking `run_random`: only a trajectory,
never any estimates. -/
def rndResults (tm : List ℚ) (numSteps : ℕ)
    (draws : ℕ → ℕ → RndDraw) : ℕ → List ℚ × Option (List ℚ) :=
  fun i => ((run_random tm numSteps (draws i)).rewards, none)

lemma filterMap_eq_map_of_some {α β : Type} (l : List α) (f : α → Option β)
    (g : α → β) (h : ∀ a ∈ l, f a = some (g a)) : l.filterMap f = l.map g := by
  induction l with
  | nil => rfl
  | cons a l ih =>
      simp [List.filterMap_cons, h a (List.mem_cons_self a l),
        ih (fun b hb => h b (List.mem_cons_of_mem a hb))]

lemma sum_map_range_congr (f g : ℕ → ℚ) (n : ℕ)
    (h : ∀ i, i < n → f i = g i) :
    ((List.range n).map f).sum = ((List.range n).map g).sum := by
  have heq : (List.range n).map f = (List.range n).map g := by
    apply List.map_congr_left
    intro a ha
    exact h a (List.mem_range.mp ha)
  rw [heq]

lemma average_runs_fst (results : ℕ → List ℚ × Option (List ℚ))
    (runs numSteps numArms : ℕ) :
    (average_runs results runs numSteps numArms).1 =
      (List.range numSteps).map (fun step =>
        (((List.range runs).map (fun run =>
          (((List.range runs).map (fun i => (results i).1)).getD run []).getD
            step 0)).sum) / (runs : ℚ)) := by
  simp only [average_runs]
  split <;> rfl

lemma average_runs_none (results : ℕ → List ℚ × Option (List ℚ))
    (runs numSteps numArms : ℕ)
    (hnone : ∀ i, (results i).2 = none) :
    (average_runs results runs numSteps numArms).2 = none := by
  have hfm : (List.range runs).filterMap (fun i => (results i).2) = [] := by
    simp [List.filterMap_eq_nil_iff, hnone]
  simp only [average_runs, hfm]
  rfl

lemma average_runs_some (results : ℕ → List ℚ × Option (List ℚ))
    (v : ℕ → List ℚ) (runs numSteps numArms : ℕ) (hruns : 1 ≤ runs)
    (hsome : ∀ i, (results i).2 = some (v i)) :
    (average_runs results runs numSteps numArms).2 =
      some ((List.range numArms).map (fun arm =>
        (((List.range runs).map (fun run =>
          (((List.range runs).map v).getD run []).getD arm 0)).sum) /
          (runs : ℚ))) := by
  have hfm : (List.range runs).filterMap (fun i => (results i).2) =
      (List.range runs).map v :=
    filterMap_eq_map_of_some _ _ _ (fun a _ => hsome a)
  have hne : ((List.range runs).map v).isEmpty = false := by
    rw [List.isEmpty_eq_false_iff_exists_mem]
    exact ⟨v 0, List.mem_map_of_mem v (List.mem_range.mpr (by omega))⟩
  simp only [average_runs, hfm, hne]
  rfl

/-- Claim C7: for `n ≥ 1` runs, the aggregate curve's element `t` is the
arithmetic mean over the runs of each run's trajectory value at step `t`,
and the averaged final-estimate vector's element `a` is the arithmetic mean
over the runs of each run's final estimate for arm `a`. -/
theorem C7_average_runs_mean (results : ℕ → List ℚ × Option (List ℚ))
    (v : ℕ → List ℚ) (runs numSteps numArms : ℕ) (hruns : 1 ≤ runs)
    (t a : ℕ) (ht : t < numSteps) (ha : a < numArms)
    (hsome : ∀ i, (results i).2 = some (v i)) :
    (average_runs results runs numSteps numArms).1.length = numSteps ∧
    (average_runs results runs numSteps numArms).1.getD t 0 =
      ((List.range runs).map (fun i => (results i).1.getD t 0)).sum /
        (runs : ℚ) ∧
    ∃ w, (average_runs results runs numSteps numArms).2 = some w ∧
      w.length = numArms ∧
      w.getD a 0 =
        ((List.range runs).map (fun i => (v i).getD a 0)).sum / (runs : ℚ) := by
  refine ⟨?_, ?_, ?_⟩
  · rw [average_runs_fst]
    simp
  · rw [average_runs_fst,
      getD_map_range (fun step =>
        (((List.range runs).map (fun run =>
          (((List.range runs).map (fun i => (results i).1)).getD run []).getD
            step 0)).sum) / (runs : ℚ)) 0 numSteps t ht]
    congr 1
    apply sum_map_range_congr
    intro i hi
    rw [getD_map_range (fun i => (results i).1) [] runs i hi]
  · refine ⟨(List.range numArms).map (fun arm =>
      (((List.range runs).map (fun run =>
        (((List.range runs).map v).getD run []).getD arm 0)).sum) /
        (runs : ℚ)), average_runs_some results v runs numSteps numArms hruns
          hsome, by simp, ?_⟩
    rw [getD_map_range (fun arm =>
      (((List.range runs).map (fun run =>
        (((List.range runs).map v).getD run []).getD arm 0)).sum) /
        (runs : ℚ)) 0 numArms a ha]
    congr 1
    apply sum_map_range_congr
    intro i hi
    rw [getD_map_range v [] runs i hi]

/-- Witness for C7: two 3-step greedy runs with zero draws, 5 arms,
inspected at step 1 and arm 2. -/
theorem C7_average_runs_mean_witness :
    1 ≤ 2 ∧ 1 < 3 ∧ 2 < 5 ∧
    ((average_runs (egResults TRUE_MEANS 5 3 EPSILON (fun _ _ => ⟨0, 0, 0⟩))
        2 3 5).1.length = 3 ∧
    (average_runs (egResults TRUE_MEANS 5 3 EPSILON (fun _ _ => ⟨0, 0, 0⟩))
        2 3 5).1.getD 1 0 =
      ((List.range 2).map (fun i =>
        (egResults TRUE_MEANS 5 3 EPSILON (fun _ _ => ⟨0, 0, 0⟩) i).1.getD
          1 0)).sum / ((2 : ℕ) : ℚ) ∧
    ∃ w, (average_runs (egResults TRUE_MEANS 5 3 EPSILON
        (fun _ _ => ⟨0, 0, 0⟩)) 2 3 5).2 = some w ∧
      w.length = 5 ∧
      w.getD 2 0 = ((List.range 2).map (fun i =>
        ((fun j => (run_epsilon_greedy TRUE_MEANS 5 3 EPSILON
          ((fun _ (_ : ℕ) => (⟨0, 0, 0⟩ : EGDraw)) j)).values) i).getD 2 0)).sum /
        ((2 : ℕ) : ℚ)) :=
  ⟨by decide, by decide, by decide,
   C7_average_runs_mean (egResults TRUE_MEANS 5 3 EPSILON (fun _ _ => ⟨0, 0, 0⟩))
     (fun j => (run_epsilon_greedy TRUE_MEANS 5 3 EPSILON
       ((fun _ (_ : ℕ) => (⟨0, 0, 0⟩ : EGDraw)) j)).values)
     2 3 5 (by decide) 1 2 (by decide) (by decide) (fun _ => rfl)⟩

/-- Claim C9: aggregating the Random policy yields a genuinely absent
(`None`) final-estimate component, while aggregating either learning policy
yields a present vector of length `numArms`. -/
theorem C9_final_estimates_presence (tm : List ℚ)
    (numArms numSteps runs : ℕ) (epsilon : ℚ) (hruns : 1 ≤ runs)
    (egDraws : ℕ → ℕ → EGDraw) (ucbDraws : ℕ → ℕ → ℚ)
    (rndDraws : ℕ → ℕ → RndDraw) :
    (average_runs (rndResults tm numSteps rndDraws) runs numSteps numArms).2 =
      none ∧
    (∃ w, (average_runs (egResults tm numArms numSteps epsilon egDraws)
        runs numSteps numArms).2 = some w ∧ w.length = numArms) ∧
    (∃ w, (average_runs (ucbResults tm numArms numSteps ucbDraws)
        runs numSteps numArms).2 = some w ∧ w.length = numArms) := by
  refine ⟨?_, ?_, ?_⟩
  · exact average_runs_none _ runs numSteps numArms (fun _ => rfl)
  · exact ⟨_, average_runs_some _
      (fun i => (run_epsilon_greedy tm numArms numSteps epsilon
        (egDraws i)).values) runs numSteps numArms hruns (fun _ => rfl),
      by simp⟩
  · exact ⟨_, average_runs_some _
      (fun i => (run_ucb tm numArms numSteps (ucbDraws i)).values)
      runs numSteps numArms hruns (fun _ => rfl), by simp⟩

/-- Witness for C9: one run of each policy over 2 steps with zero draws. -/
theorem C9_final_estimates_presence_witness :
    1 ≤ 1 ∧
    ((average_runs (rndResults TRUE_MEANS 2 (fun _ _ => ⟨0, 0⟩)) 1 2 5).2 =
      none ∧
    (∃ w, (average_runs (egResults TRUE_MEANS 5 2 EPSILON
        (fun _ _ => ⟨0, 0, 0⟩)) 1 2 5).2 = some w ∧ w.length = 5) ∧
    (∃ w, (average_runs (ucbResults TRUE_MEANS 5 2 (fun _ _ => 0))
        1 2 5).2 = some w ∧ w.length = 5)) :=
  ⟨by decide,
   C9_final_estimates_presence TRUE_MEANS 5 2 1 EPSILON (by decide)
     (fun _ _ => ⟨0, 0, 0⟩) (fun _ _ => 0) (fun _ _ => ⟨0, 0⟩)⟩

end MAB
